import Mathlib

/-!
# go-chat-websocket: the Hub control loop and the two per-connection pumps

Shallow embedding of `backend/main.go`.

* A `*Client` pointer is a natural number; `Hub.send c` is the state of the
  channel `c.send` (the field is never reassigned, so a client and its queue
  are identified).
* `Hub.clients` holds the keys of `map[*Client]bool` (every stored value is
  `true`); a Go map has distinct keys.
* `Hub.next` is the address the next `&Client{...}` of `serveWs` receives.
* `Hub.trace` records, in order, every channel operation the control loop
  performed on a client queue.
* A runtime panic (send on a closed channel, close of a closed channel) is the
  result `none`.
* `log.Printf` calls of the control loop have no effect on the state and are
  left out.
-/

namespace GoChat

/-- A frame payload, Go type `[]byte`. -/
abbrev Msg := List UInt8

/-- The address of a `Client` value. -/
abbrev ClientId := Nat

/-- The state of one buffered Go channel of payloads. -/
structure Chan where
  buf : List Msg
  cap : Nat
  closed : Bool
deriving DecidableEq, Repr

/-- Go `make(chan []byte, n)`. -/
def makeChan (n : Nat) : Chan := { buf := [], cap := n, closed := false }

/-- Buffer size of `Client.send` chosen by `serveWs`. -/
def sendCap : Nat := 256

/-- The outcome of `select { case ch <- m: ...; default: ... }`. -/
inductive SelectSend where
  | sent (ch : Chan)
  | full
deriving DecidableEq, Repr

/-- Non-blocking send `select { case ch <- m: default: }`: a closed channel
panics, a channel with buffer room takes the value at the tail, otherwise the
`default` branch runs. -/
def Chan.trySend (ch : Chan) (m : Msg) : Option SelectSend :=
  if ch.closed then none
  else if ch.buf.length < ch.cap then some (SelectSend.sent { ch with buf := ch.buf ++ [m] })
  else some SelectSend.full

/-- Go `close(ch)`: closing a closed channel panics; buffered values stay. -/
def Chan.close (ch : Chan) : Option Chan :=
  if ch.closed then none else some { ch with closed := true }

/-- Receive `<-ch` when a value is buffered: the head leaves the buffer. With
an empty buffer the channel is unchanged (the receiver blocks, or observes
`ok == false` when the channel is closed). -/
def Chan.recv (ch : Chan) : Chan :=
  match ch.buf with
  | [] => ch
  | _ :: rest => { ch with buf := rest }

/-- A channel operation performed by the control loop. -/
inductive Op where
  | send (c : ClientId) (m : Msg)
  | close (c : ClientId)
deriving DecidableEq, Repr

/-- The Hub with the client queues it can reach. -/
structure Hub where
  clients : List ClientId
  send : ClientId → Chan
  next : ClientId
  trace : List Op

/-- A value received by `Hub.run` from one of its three conduits. -/
inductive Event where
  | register (c : ClientId)
  | unregister (c : ClientId)
  | broadcast (m : Msg)
deriving DecidableEq, Repr

/-- Go `newHub()`: an empty map; no client has been created, and what `send`
holds at an address that was not handed out yet is never looked at. -/
def newHub : Hub :=
  { clients := [], send := fun _ => makeChan 0, next := 0, trace := [] }

/-- Go `h.clients[client] = true`. -/
def Hub.insertClient (h : Hub) (c : ClientId) : Hub :=
  { h with clients := if c ∈ h.clients then h.clients else h.clients ++ [c] }

/-- Go `delete(h.clients, client)`. -/
def Hub.deleteClient (h : Hub) (c : ClientId) : Hub :=
  { h with clients := h.clients.filter (fun d => decide (d ≠ c)) }

/-- Go `close(client.send)`. -/
def Hub.closeSend (h : Hub) (c : ClientId) : Option Hub :=
  match (h.send c).close with
  | none => none
  | some ch => some { h with send := Function.update h.send c ch, trace := h.trace ++ [Op.close c] }

/-- The body of the `for client := range h.clients` loop of the broadcast
case: a non-blocking send, and on `default` the queue is closed and the client
deleted from the map. -/
def Hub.deliver (m : Msg) (h : Hub) (c : ClientId) : Option Hub :=
  match (h.send c).trySend m with
  | none => none
  | some (SelectSend.sent ch) =>
    some { h with send := Function.update h.send c ch, trace := h.trace ++ [Op.send c m] }
  | some SelectSend.full =>
    match h.closeSend c with
    | none => none
    | some h1 => some (h1.deleteClient c)

/-- The `range` loop of the broadcast case over the keys in visiting order. -/
def Hub.fanOut (m : Msg) : List ClientId → Hub → Option Hub
  | [], h => some h
  | c :: rest, h =>
    match h.deliver m c with
    | none => none
    | some h1 => Hub.fanOut m rest h1

/-- One iteration of the `for { select { ... } }` loop of `Hub.run`. -/
def Hub.runStep (h : Hub) : Event → Option Hub
  | Event.register c => some (h.insertClient c)
  | Event.unregister c =>
    if c ∈ h.clients then (h.deleteClient c).closeSend c else some h
  | Event.broadcast m => Hub.fanOut m h.clients h

/-- The control loop `Hub.run` on the events it receives, in order. -/
def Hub.run : List Event → Hub → Option Hub
  | [], h => some h
  | e :: rest, h =>
    match h.runStep e with
    | none => none
    | some h1 => Hub.run rest h1

/-- The part of `serveWs` after a successful upgrade: a new client with a
queue of 256 slots is created and handed to the Hub, which registers it (a
failed upgrade returns before any client exists and leaves the state as it
is). -/
def serveWs (h : Hub) : Option Hub :=
  let c := h.next
  Hub.runStep
    { h with send := Function.update h.send c (makeChan sendCap), next := c + 1 }
    (Event.register c)

/-- The write pump of client `c` receives from `c.send`. -/
def Hub.dequeue (h : Hub) (c : ClientId) : Hub :=
  { h with send := Function.update h.send c (h.send c).recv }

/-- A step of the whole system as far as the Hub state is concerned: a new
connection served by `serveWs`, an unregister request of a read pump, a
broadcast request of a read pump, a receive of a write pump. -/
inductive Action where
  | connect
  | unregister (c : ClientId)
  | broadcast (m : Msg)
  | dequeue (c : ClientId)
deriving DecidableEq, Repr

/-- The effect of one system step on the Hub state. -/
def Hub.act (h : Hub) : Action → Option Hub
  | Action.connect => serveWs h
  | Action.unregister c => h.runStep (Event.unregister c)
  | Action.broadcast m => h.runStep (Event.broadcast m)
  | Action.dequeue c => some (h.dequeue c)

/-- A finite run of the system. -/
def Hub.acts : List Action → Hub → Option Hub
  | [], h => some h
  | a :: rest, h =>
    match h.act a with
    | none => none
    | some h1 => Hub.acts rest h1

/-- Well-formed Hub state: the map keys are distinct and every registered
client holds an open queue of capacity 256 with at most 256 buffered
messages. -/
def Hub.WF (h : Hub) : Prop :=
  h.clients.Nodup ∧
    ∀ c ∈ h.clients, (h.send c).closed = false ∧ (h.send c).cap = sendCap ∧
      (h.send c).buf.length ≤ sendCap

instance (h : Hub) : Decidable h.WF := by
  unfold Hub.WF; infer_instance

/-- The channel after one visit of the broadcast loop, when it was open. -/
def Chan.afterDeliver (ch : Chan) (m : Msg) : Chan :=
  if ch.buf.length < ch.cap then { ch with buf := ch.buf ++ [m] } else { ch with closed := true }

/-- The channel operation of one visit of the broadcast loop. -/
def Hub.deliverOp (h : Hub) (m : Msg) (c : ClientId) : Op :=
  if (h.send c).buf.length < (h.send c).cap then Op.send c m else Op.close c

/-- Closed form of the broadcast loop on open queues. -/
def Hub.fanOutResult (m : Msg) (order : List ClientId) (h : Hub) : Hub :=
  { clients := h.clients.filter
      (fun d => !(decide (d ∈ order) && decide ((h.send d).cap ≤ (h.send d).buf.length)))
    send := fun d => if d ∈ order then (h.send d).afterDeliver m else h.send d
    next := h.next
    trace := h.trace ++ order.map (h.deliverOp m) }

/-- The state after `Unregister(c)` for a registered client with an open queue. -/
def Hub.unregistered (h : Hub) (c : ClientId) : Hub :=
  { clients := h.clients.filter (fun d => decide (d ≠ c))
    send := Function.update h.send c { h.send c with closed := true }
    next := h.next
    trace := h.trace ++ [Op.close c] }

/-- The invariant of the reachable states: distinct map keys, all of them
created clients; every created client has a queue of capacity 256 holding at
most 256 messages, which is closed exactly when the client is no longer in the
map; and the trace holds one close of a queue for each removed client and none
for any other. -/
def Hub.Inv (h : Hub) : Prop :=
  h.clients.Nodup ∧ (∀ c ∈ h.clients, c < h.next) ∧
    (∀ c, c < h.next → (h.send c).cap = sendCap ∧ (h.send c).buf.length ≤ sendCap ∧
      ((h.send c).closed = true ↔ c ∉ h.clients)) ∧
    ∀ c, h.trace.count (Op.close c) = if c < h.next ∧ c ∉ h.clients then 1 else 0

/-- The payload `"hello"`. -/
def hello : Msg := [104, 101, 108, 108, 111]

/-- The payload `"world"`. -/
def world : Msg := [119, 111, 114, 108, 100]

/-- The end-to-end scenario: A, B, C connect (addresses 0, 1, 2), `"hello"` is
broadcast, C is unregistered, `"world"` is broadcast; no queue is drained. -/
def scenario : List Action :=
  [Action.connect, Action.connect, Action.connect, Action.broadcast hello,
    Action.unregister 2, Action.broadcast world]

/-- Go `time.Second` as a `time.Duration`, a number of nanoseconds. -/
def second : Nat := 1000000000

/-- Read timeout, `readWait = 60 * time.Second`. -/
def readWait : Nat := 60 * second

/-- Period of the ping ticker, `pingPeriod = 5 * time.Second`. -/
def pingPeriod : Nat := 5 * second

/-- Write timeout, `pongWait = 5 * time.Second`. -/
def pongWait : Nat := 5 * second

/-- An error returned by `conn.ReadMessage()`: a `*websocket.CloseError` with
its close code, or any other error (deadline exceeded, reset, read limit). -/
inductive ReadErr where
  | closeError (code : Nat)
  | other
deriving DecidableEq, Repr

/-- Close code `websocket.CloseGoingAway`. -/
def closeGoingAway : Nat := 1001

/-- Close code `websocket.CloseAbnormalClosure`. -/
def closeAbnormalClosure : Nat := 1006

/-- Library function `websocket.IsUnexpectedCloseError(err, codes...)`: true
for a close error whose code is not among `codes`. -/
def isUnexpectedCloseError (e : ReadErr) (codes : List Nat) : Bool :=
  match e with
  | ReadErr.closeError code => !(codes.contains code)
  | ReadErr.other => false

/-- What the connection hands to a pending `conn.ReadMessage()`: a pong frame
(the pong handler runs and the call keeps waiting), a data message (returned
with a nil error), or an error. -/
inductive Inbound where
  | pong
  | message (m : Msg)
  | error (e : ReadErr)
deriving DecidableEq, Repr

/-- The frame kinds written by the write pump: `websocket.TextMessage`,
`websocket.PingMessage`, `websocket.CloseMessage`. -/
inductive FrameKind where
  | text
  | ping
  | close
deriving DecidableEq, Repr

/-- The observable calls of the two pumps. -/
inductive Effect where
  | setReadLimit (n : Nat)
  | setReadDeadline (d : Nat)
  | setPongHandler
  | hubBroadcast (m : Msg)
  | hubUnregister (c : ClientId)
  | logLine
  | connClose
  | newTicker (d : Nat)
  | tickerStop
  | setWriteDeadline (d : Nat)
  | writeMessage (k : FrameKind) (p : Msg)
deriving DecidableEq, Repr

/-- The `for` loop of `readPump` on the inbound events of the connection: the
calls it makes, and whether it left the loop (`break`). With no more inbound
events the pump stays blocked in `ReadMessage`. -/
def readLoop : List Inbound → List Effect × Bool
  | [] => ([], false)
  | Inbound.pong :: rest =>
    let r := readLoop rest
    (Effect.setReadDeadline readWait :: r.1, r.2)
  | Inbound.message m :: rest =>
    let r := readLoop rest
    (Effect.hubBroadcast m :: r.1, r.2)
  | Inbound.error e :: _ =>
    (if isUnexpectedCloseError e [closeGoingAway, closeAbnormalClosure] then [Effect.logLine]
      else [], true)

/-- Go `Client.readPump` of the client at address `self`: the setup calls, the
loop, and the deferred function once the loop is left. -/
def readPump (self : ClientId) (inb : List Inbound) : List Effect :=
  let r := readLoop inb
  [Effect.setReadLimit 512, Effect.setReadDeadline readWait, Effect.setPongHandler] ++ r.1 ++
    (if r.2 then [Effect.hubUnregister self, Effect.connClose] else [])

/-- A wake-up of the `select` of `writePump`: a message received from
`c.send`, the receive reporting the closed queue (`ok == false`), or a tick. -/
inductive Wake where
  | message (m : Msg)
  | closed
  | tick
deriving DecidableEq, Repr

/-- The `for` loop of `writePump` on its wake-ups, each paired with the
outcome of the `WriteMessage` call it leads to (`true` for a nil error): the
calls it makes, and whether it returned. With no more wake-ups the pump stays
blocked in `select`. -/
def writeLoop : List (Wake × Bool) → List Effect × Bool
  | [] => ([], false)
  | (Wake.message m, ok) :: rest =>
    if ok then
      let r := writeLoop rest
      (Effect.setWriteDeadline pongWait :: Effect.writeMessage FrameKind.text m :: r.1, r.2)
    else
      ([Effect.setWriteDeadline pongWait, Effect.writeMessage FrameKind.text m, Effect.logLine],
        true)
  | (Wake.closed, _) :: _ =>
    ([Effect.setWriteDeadline pongWait, Effect.writeMessage FrameKind.close []], true)
  | (Wake.tick, ok) :: rest =>
    if ok then
      let r := writeLoop rest
      (Effect.setWriteDeadline pongWait :: Effect.writeMessage FrameKind.ping [] :: r.1, r.2)
    else
      ([Effect.setWriteDeadline pongWait, Effect.writeMessage FrameKind.ping [], Effect.logLine],
        true)

/-- Go `Client.writePump`: the ticker, the loop, and the deferred function
once the loop returned. -/
def writePump (wakes : List (Wake × Bool)) : List Effect :=
  let r := writeLoop wakes
  Effect.newTicker pingPeriod :: r.1 ++
    (if r.2 then [Effect.tickerStop, Effect.connClose] else [])

/-- The requests a pump submitted to the Hub, in order. -/
def hubRequests (tr : List Effect) : List Effect :=
  tr.filter (fun e => match e with
    | Effect.hubBroadcast _ => true
    | Effect.hubUnregister _ => true
    | _ => false)

/-- The frames a pump wrote to the connection, in order. -/
def framesWritten (tr : List Effect) : List Effect :=
  tr.filter (fun e => match e with
    | Effect.writeMessage _ _ => true
    | _ => false)

/-- The data payload of an inbound event, if it is a data message. -/
def Inbound.payload : Inbound → Option Msg
  | Inbound.message m => some m
  | _ => none

/-- Whether an inbound event is a read error. -/
def Inbound.isError : Inbound → Bool
  | Inbound.error _ => true
  | _ => false

/-- The frame the write pump writes for a wake-up. -/
def Wake.frame : Wake → Effect
  | Wake.message m => Effect.writeMessage FrameKind.text m
  | Wake.closed => Effect.writeMessage FrameKind.close []
  | Wake.tick => Effect.writeMessage FrameKind.ping []

/-- A wake-up after which the loop of `writePump` goes on: a message or a tick
whose write succeeded. -/
def goesOn (w : Wake × Bool) : Bool :=
  match w with
  | (Wake.closed, _) => false
  | (_, ok) => ok

/-- The read-deadline windows of a pump trace whose calls happened at the
times `ts` (the `i`-th call at the `i`-th time, as read by `time.Now()`): a
call `SetReadDeadline(time.Now().Add(d))` at time `t` opens the window that
starts at `t` and ends at the deadline `t + d`. -/
def windowsOf (ts : List Nat) (tr : List Effect) : List (Nat × Nat) :=
  (ts.zip tr).filterMap (fun x =>
    match x.2 with
    | Effect.setReadDeadline d => some (x.1, x.1 + d)
    | _ => none)

/-- The tickers of a pump trace whose calls happened at the times `ts`: a call
`time.NewTicker(d)` at time `t` gives the ticker `(t, d)`. -/
def tickersOf (ts : List Nat) (tr : List Effect) : List (Nat × Nat) :=
  (ts.zip tr).filterMap (fun x =>
    match x.2 with
    | Effect.newTicker d => some (x.1, d)
    | _ => none)

/-- The time of the `k`-th tick (`k ≥ 1`) of the ticker `(t0, d)`: a ticker
created at `t0` with period `d` ticks at `t0 + d`, `t0 + 2 d`, ... -/
def tickTime (tk : Nat × Nat) (k : Nat) : Nat := tk.1 + k * tk.2

/-- The inbound events `readPump` handles: those before the first error. -/
def handled (inb : List Inbound) : List Inbound :=
  inb.takeWhile (fun x => !x.isError)

/-- A buffer of 256 empty payloads. -/
def fullBuf : List Msg := List.replicate 256 []

/-- A well-formed state for the examples: client 0 holds 256 queued (empty)
payloads, client 1 an empty queue, client 2 was removed. -/
def demoHub : Hub :=
  { clients := [0, 1]
    send := fun c =>
      if c = 0 then { buf := fullBuf, cap := 256, closed := false }
      else if c = 1 then makeChan 256
      else { buf := [], cap := 256, closed := true }
    next := 3
    trace := [Op.close 2] }

/-! ## Theorems -/

theorem Hub.ext_fields {a b : Hub} (h1 : a.clients = b.clients) (h2 : ∀ c, a.send c = b.send c)
    (h3 : a.next = b.next) (h4 : a.trace = b.trace) : a = b := by
  cases a; cases b
  simp only [Hub.mk.injEq]
  exact ⟨h1, funext h2, h3, h4⟩

theorem deliver_open (m : Msg) (h : Hub) (c : ClientId) (ho : (h.send c).closed = false) :
    h.deliver m c = some (h.fanOutResult m [c]) := by
  unfold Hub.deliver Chan.trySend
  by_cases hr : (h.send c).buf.length < (h.send c).cap
  · simp only [ho, hr, Bool.false_eq_true, if_false, if_true, Option.some.injEq]
    apply Hub.ext_fields
    · simp only [Hub.fanOutResult]
      symm
      rw [List.filter_eq_self]
      intro d _
      have : ¬ ((h.send c).cap ≤ (h.send c).buf.length) := by omega
      by_cases hd : d = c
      · subst hd; simp [this]
      · simp [hd]
    · intro d
      by_cases hd : d = c
      · subst hd; simp [Hub.fanOutResult, Chan.afterDeliver, hr, ho]
      · simp [Hub.fanOutResult, Function.update_noteq hd, hd]
    · rfl
    · simp [Hub.fanOutResult, Hub.deliverOp, hr]
  · simp only [ho, hr, Bool.false_eq_true, if_false, Hub.closeSend, Chan.close, Option.some.injEq]
    apply Hub.ext_fields
    · simp only [Hub.fanOutResult, Hub.deleteClient]
      apply List.filter_congr
      intro d _
      have : (h.send c).cap ≤ (h.send c).buf.length := by omega
      by_cases hd : d = c
      · subst hd; simp [this]
      · simp [hd]
    · intro d
      by_cases hd : d = c
      · subst hd; simp [Hub.fanOutResult, Hub.deleteClient, Chan.afterDeliver, hr, ho]
      · simp [Hub.fanOutResult, Hub.deleteClient, Function.update_noteq hd, hd]
    · rfl
    · simp [Hub.fanOutResult, Hub.deleteClient, Hub.deliverOp, hr]

theorem fanOutResult_cons (m : Msg) (c : ClientId) (rest : List ClientId) (h : Hub)
    (hc : c ∉ rest) :
    Hub.fanOutResult m rest (h.fanOutResult m [c]) = h.fanOutResult m (c :: rest) := by
  have hsend : ∀ d ∈ rest, (h.fanOutResult m [c]).send d = h.send d := by
    intro d hd
    have : d ≠ c := fun e => hc (e ▸ hd)
    simp [Hub.fanOutResult, this]
  apply Hub.ext_fields
  · show List.filter _ (List.filter _ h.clients) = List.filter _ h.clients
    rw [List.filter_filter]
    apply List.filter_congr
    intro d _
    by_cases hd : d ∈ rest
    · have hdc : d ≠ c := fun e => hc (e ▸ hd)
      rw [hsend d hd]
      simp [hd, hdc]
    · simp [hd]
  · intro d
    show (if d ∈ rest then ((h.fanOutResult m [c]).send d).afterDeliver m
      else (h.fanOutResult m [c]).send d) = _
    by_cases hd : d ∈ rest
    · have hdc : d ≠ c := fun e => hc (e ▸ hd)
      rw [hsend d hd]
      simp [Hub.fanOutResult, hd]
    · by_cases hdc : d = c
      · subst hdc; simp [Hub.fanOutResult, hd]
      · simp [Hub.fanOutResult, hd, hdc]
  · rfl
  · show (h.trace ++ List.map (h.deliverOp m) [c]) ++ List.map _ rest = h.trace ++ List.map _ (c :: rest)
    have : List.map ((h.fanOutResult m [c]).deliverOp m) rest = List.map (h.deliverOp m) rest := by
      apply List.map_congr_left
      intro d hd
      simp only [Hub.deliverOp, hsend d hd]
    rw [this]
    simp

/-- The broadcast loop over distinct clients with open queues never panics
and ends in the closed form. -/
theorem fanOut_eq (m : Msg) (order : List ClientId) (h : Hub) (hnd : order.Nodup)
    (ho : ∀ c ∈ order, (h.send c).closed = false) :
    Hub.fanOut m order h = some (h.fanOutResult m order) := by
  induction order generalizing h with
  | nil =>
    simp only [Hub.fanOut, Option.some.injEq]
    apply Hub.ext_fields <;> simp [Hub.fanOutResult]
  | cons c rest ih =>
    have hc : c ∉ rest := (List.nodup_cons.mp hnd).1
    have hrest : rest.Nodup := (List.nodup_cons.mp hnd).2
    simp only [Hub.fanOut, deliver_open m h c (ho c (List.mem_cons_self _ _))]
    rw [ih (h.fanOutResult m [c]) hrest, fanOutResult_cons m c rest h hc]
    intro d hd
    have hdc : d ≠ c := fun e => hc (e ▸ hd)
    have := ho d (List.mem_cons_of_mem _ hd)
    simpa [Hub.fanOutResult, hdc] using this

theorem deliverOp_injective (h : Hub) (m : Msg) : Function.Injective (h.deliverOp m) := by
  intro a b hab
  unfold Hub.deliverOp at hab
  split at hab <;> split at hab <;> simp at hab <;> exact hab

/-- The state after a broadcast step from a well-formed state. -/
theorem broadcast_eq (h : Hub) (m : Msg) (hwf : h.WF) :
    h.runStep (Event.broadcast m) = some (h.fanOutResult m h.clients) :=
  fanOut_eq m h.clients h hwf.1 (fun c hc => (hwf.2 c hc).1)

theorem fanOutResult_mem (h : Hub) (m : Msg) (hwf : h.WF) (d : ClientId) :
    d ∈ (h.fanOutResult m h.clients).clients ↔
      d ∈ h.clients ∧ (h.send d).buf.length < sendCap := by
  simp only [Hub.fanOutResult, List.mem_filter]
  constructor
  · rintro ⟨hd, hk⟩
    have := (hwf.2 d hd).2.1
    simp [hd, this] at hk
    exact ⟨hd, hk⟩
  · rintro ⟨hd, hk⟩
    have := (hwf.2 d hd).2.1
    refine ⟨hd, ?_⟩
    simp [hd, this, hk]

theorem fanOutResult_send_room (h : Hub) (m : Msg) (hwf : h.WF) (d : ClientId)
    (hd : d ∈ h.clients) (hr : (h.send d).buf.length < sendCap) :
    (h.fanOutResult m h.clients).send d = { h.send d with buf := (h.send d).buf ++ [m] } := by
  have := (hwf.2 d hd).2.1
  simp [Hub.fanOutResult, hd, Chan.afterDeliver, this, hr]

theorem fanOutResult_send_full (h : Hub) (m : Msg) (hwf : h.WF) (d : ClientId)
    (hd : d ∈ h.clients) (hr : (h.send d).buf.length = sendCap) :
    (h.fanOutResult m h.clients).send d = { h.send d with closed := true } := by
  have := (hwf.2 d hd).2.1
  simp [Hub.fanOutResult, hd, Chan.afterDeliver, this, hr]

/-- A broadcast step keeps the state well-formed. -/
theorem broadcast_wf (h : Hub) (m : Msg) (hwf : h.WF) : (h.fanOutResult m h.clients).WF := by
  refine ⟨hwf.1.filter _, ?_⟩
  intro d hd
  obtain ⟨hd1, hd2⟩ := (fanOutResult_mem h m hwf d).mp hd
  rw [fanOutResult_send_room h m hwf d hd1 hd2]
  obtain ⟨ho, hcap, _⟩ := hwf.2 d hd1
  refine ⟨ho, hcap, ?_⟩
  simp only [List.length_append, List.length_singleton]
  omega

/-- A registered client with room for all of `ms` stays registered through the
broadcasts of `ms` and its queue grows by `ms`, in order. -/
theorem broadcasts_in_order (ms : List Msg) (h : Hub) (c : ClientId) (hwf : h.WF)
    (hc : c ∈ h.clients) (hlen : (h.send c).buf.length + ms.length ≤ sendCap) :
    ∃ h2, h.run (ms.map Event.broadcast) = some h2 ∧ h2.WF ∧ c ∈ h2.clients ∧
      (h2.send c).buf = (h.send c).buf ++ ms := by
  induction ms generalizing h with
  | nil => exact ⟨h, rfl, hwf, hc, by simp⟩
  | cons m rest ih =>
    simp only [List.length_cons] at hlen
    have hr : (h.send c).buf.length < sendCap := by omega
    have hmem := (fanOutResult_mem h m hwf c).mpr ⟨hc, hr⟩
    have hsend := fanOutResult_send_room h m hwf c hc hr
    obtain ⟨h2, hrun, hwf2, hc2, hbuf⟩ :=
      ih (h.fanOutResult m h.clients) (broadcast_wf h m hwf) hmem
        (by rw [hsend]; simp only [List.length_append, List.length_singleton]; omega)
    refine ⟨h2, ?_, hwf2, hc2, ?_⟩
    · simp only [List.map_cons, Hub.run, broadcast_eq h m hwf]
      exact hrun
    · rw [hbuf, hsend]; simp

/-- Claim C1 (backpressure eviction). In a well-formed Hub state, when a
registered client `c` has 256 queued messages, the step `Broadcast(m)` of
`Hub.run` does not panic, removes `c` from the map, closes the queue of `c`
with its contents unchanged, performs exactly one close and no send on the
queue of `c`, and every registered client with fewer than 256 queued messages
stays registered, keeps an open queue and has `m` appended to it. -/
theorem backpressure_eviction (h : Hub) (m : Msg) (c : ClientId) (hwf : h.WF)
    (hc : c ∈ h.clients) (hfull : (h.send c).buf.length = 256) :
    ∃ h1 ops, h.runStep (Event.broadcast m) = some h1 ∧
      c ∉ h1.clients ∧
      (h1.send c).closed = true ∧ (h1.send c).buf = (h.send c).buf ∧
      h1.trace = h.trace ++ ops ∧ ops.count (Op.close c) = 1 ∧ (∀ x, Op.send c x ∉ ops) ∧
      ∀ d ∈ h.clients, (h.send d).buf.length < 256 →
        d ∈ h1.clients ∧ (h1.send d).closed = false ∧
          (h1.send d).buf = (h.send d).buf ++ [m] := by
  have hcap := (hwf.2 c hc).2.1
  have hop : h.deliverOp m c = Op.close c := by
    simp [Hub.deliverOp, hcap, hfull, sendCap]
  refine ⟨h.fanOutResult m h.clients, h.clients.map (h.deliverOp m), broadcast_eq h m hwf,
    ?_, ?_, ?_, rfl, ?_, ?_, ?_⟩
  · intro hmem
    have := ((fanOutResult_mem h m hwf c).mp hmem).2
    simp only [sendCap] at this
    omega
  · rw [fanOutResult_send_full h m hwf c hc hfull]
  · rw [fanOutResult_send_full h m hwf c hc hfull]
  · rw [← hop, List.count_map_of_injective _ _ (deliverOp_injective h m)]
    exact List.count_eq_one_of_mem hwf.1 hc
  · intro x hx
    obtain ⟨d, _, hd⟩ := List.mem_map.mp hx
    unfold Hub.deliverOp at hd
    split at hd
    · simp only [Op.send.injEq] at hd
      rename_i hroom
      rw [hd.1, hcap, hfull] at hroom
      simp [sendCap] at hroom
    · simp at hd
  · intro d hd hr
    refine ⟨(fanOutResult_mem h m hwf d).mpr ⟨hd, hr⟩, ?_, ?_⟩
    · rw [fanOutResult_send_room h m hwf d hd hr]
      exact (hwf.2 d hd).1
    · rw [fanOutResult_send_room h m hwf d hd hr]

/-- Claim C2 (fan-out completeness). In a well-formed Hub state with any
number of registered clients, the step `Broadcast(m)` of `Hub.run` does not
panic and leaves every registered client with fewer than 256 queued messages
registered, its queue open and equal to the previous contents followed by one
copy of `m`; and a client with room for a whole sequence `ms` of broadcasts
stays registered and ends with its previous contents followed by `ms` in the
order the Hub processed them. The broadcast event carries the payload only, so
the sender is treated as any other registered client. -/
theorem fanout_completeness (h : Hub) (m : Msg) (hwf : h.WF) :
    ∃ h1, h.runStep (Event.broadcast m) = some h1 ∧
      (∀ c ∈ h.clients, (h.send c).buf.length < 256 →
        c ∈ h1.clients ∧ (h1.send c).closed = false ∧
          (h1.send c).buf = (h.send c).buf ++ [m]) ∧
      ∀ (ms : List Msg) (c : ClientId), c ∈ h.clients →
        (h.send c).buf.length + ms.length ≤ 256 →
        ∃ h2, h.run (ms.map Event.broadcast) = some h2 ∧ c ∈ h2.clients ∧
          (h2.send c).closed = false ∧ (h2.send c).buf = (h.send c).buf ++ ms := by
  refine ⟨h.fanOutResult m h.clients, broadcast_eq h m hwf, ?_, ?_⟩
  · intro d hd hr
    refine ⟨(fanOutResult_mem h m hwf d).mpr ⟨hd, hr⟩, ?_, ?_⟩
    · rw [fanOutResult_send_room h m hwf d hd hr]
      exact (hwf.2 d hd).1
    · rw [fanOutResult_send_room h m hwf d hd hr]
  · intro ms c hc hlen
    obtain ⟨h2, hrun, hwf2, hc2, hbuf⟩ := broadcasts_in_order ms h c hwf hc hlen
    exact ⟨h2, hrun, hc2, (hwf2.2 c hc2).1, hbuf⟩

theorem unregister_member (h : Hub) (c : ClientId) (hc : c ∈ h.clients)
    (ho : (h.send c).closed = false) :
    h.runStep (Event.unregister c) = some (h.unregistered c) := by
  simp [Hub.runStep, hc, Hub.closeSend, Hub.deleteClient, Chan.close, ho, Hub.unregistered]

theorem unregister_absent (h : Hub) (c : ClientId) (hc : c ∉ h.clients) :
    h.runStep (Event.unregister c) = some h := by
  simp [Hub.runStep, hc]

theorem unregistered_not_mem (h : Hub) (c : ClientId) : c ∉ (h.unregistered c).clients := by
  simp [Hub.unregistered]

theorem fanOutResult_not_mem_full (h : Hub) (m : Msg) (hwf : h.WF) (c : ClientId)
    (hfull : (h.send c).buf.length = 256) : c ∉ (h.fanOutResult m h.clients).clients := by
  intro hmem
  have := ((fanOutResult_mem h m hwf c).mp hmem).2
  simp only [sendCap] at this
  omega

/-- Claim C3 (unregister semantics). In a well-formed Hub state the step
`Unregister(c)` of `Hub.run` does not panic; when `c` is registered it removes
exactly `c` from the map, closes the queue of `c` (contents kept) with one
close operation, and leaves the membership and the queue of every other client
unchanged; when `c` is not registered the whole state is unchanged. -/
theorem unregister_semantics (h : Hub) (c : ClientId) (hwf : h.WF) :
    (c ∈ h.clients →
      ∃ h1, h.runStep (Event.unregister c) = some h1 ∧
        c ∉ h1.clients ∧ (∀ d, d ≠ c → (d ∈ h1.clients ↔ d ∈ h.clients)) ∧
        h1.send c = { h.send c with closed := true } ∧
        (∀ d, d ≠ c → h1.send d = h.send d) ∧
        h1.trace = h.trace ++ [Op.close c] ∧ h1.next = h.next) ∧
    (c ∉ h.clients → h.runStep (Event.unregister c) = some h) := by
  refine ⟨fun hc => ?_, unregister_absent h c⟩
  refine ⟨h.unregistered c, unregister_member h c hc (hwf.2 c hc).1,
    unregistered_not_mem h c, ?_, ?_, ?_, rfl, rfl⟩
  · intro d hd
    simp [Hub.unregistered, hd]
  · simp [Hub.unregistered]
  · intro d hd
    simp [Hub.unregistered, Function.update_noteq hd]

/-- Claim C4 (at-most-one unregister effect). In a well-formed Hub state with
`c` registered, processing `Unregister(c)` twice does not panic and ends in
the state reached after the first one, whose trace gained exactly the one
operation `close(c.send)`; and when the queue of `c` holds 256 messages, a
`Broadcast(m)` followed by `Unregister(c)` does not panic, ends in the state
reached after the broadcast, and the operations of the two steps contain
exactly one close of the queue of `c`. -/
theorem unregister_at_most_once (h : Hub) (c : ClientId) (hwf : h.WF) (hc : c ∈ h.clients) :
    (∃ h1, h.runStep (Event.unregister c) = some h1 ∧
      h.run [Event.unregister c, Event.unregister c] = some h1 ∧
      h1.runStep (Event.unregister c) = some h1 ∧
      (h1.send c).closed = true ∧ h1.trace = h.trace ++ [Op.close c]) ∧
    ∀ m : Msg, (h.send c).buf.length = 256 →
      ∃ h1 ops, h.runStep (Event.broadcast m) = some h1 ∧
        h.run [Event.broadcast m, Event.unregister c] = some h1 ∧
        h1.runStep (Event.unregister c) = some h1 ∧
        (h1.send c).closed = true ∧
        h1.trace = h.trace ++ ops ∧ ops.count (Op.close c) = 1 := by
  constructor
  · have h1 := unregister_member h c hc (hwf.2 c hc).1
    have h2 := unregister_absent (h.unregistered c) c (unregistered_not_mem h c)
    refine ⟨h.unregistered c, h1, ?_, h2, ?_, rfl⟩
    · simp only [Hub.run, h1, h2]
    · simp [Hub.unregistered]
  · intro m hfull
    have h1 := broadcast_eq h m hwf
    have h2 := unregister_absent (h.fanOutResult m h.clients) c
      (fanOutResult_not_mem_full h m hwf c hfull)
    have hcap := (hwf.2 c hc).2.1
    have hop : h.deliverOp m c = Op.close c := by
      simp [Hub.deliverOp, hcap, hfull, sendCap]
    refine ⟨h.fanOutResult m h.clients, h.clients.map (h.deliverOp m), h1, ?_, h2, ?_, rfl, ?_⟩
    · simp only [Hub.run, h1, h2]
    · rw [fanOutResult_send_full h m hwf c hc hfull]
    · rw [← hop, List.count_map_of_injective _ _ (deliverOp_injective h m)]
      exact List.count_eq_one_of_mem hwf.1 hc

/-- Claim C7 (register). For a client `c` that is not in the map, the step
`Register(c)` of `Hub.run` does not panic, puts `c` in the map, raises the
number of map entries by exactly one, and changes no other membership, no
queue and performs no channel operation. -/
theorem register_adds_one (h : Hub) (c : ClientId) (hc : c ∉ h.clients) :
    ∃ h1, h.runStep (Event.register c) = some h1 ∧
      c ∈ h1.clients ∧ h1.clients.length = h.clients.length + 1 ∧
      (∀ d, d ≠ c → (d ∈ h1.clients ↔ d ∈ h.clients)) ∧
      (h.clients.Nodup → h1.clients.Nodup) ∧
      h1.send = h.send ∧ h1.trace = h.trace ∧ h1.next = h.next := by
  refine ⟨h.insertClient c, rfl, ?_, ?_, ?_, ?_, rfl, rfl, rfl⟩
  · simp [Hub.insertClient, hc]
  · simp [Hub.insertClient, hc]
  · intro d hd
    simp [Hub.insertClient, hc, hd]
  · intro hnd
    simp only [Hub.insertClient, hc, if_false]
    exact List.Nodup.append hnd (List.nodup_singleton c) (by simpa using hc)

theorem Inv.wf {h : Hub} (hi : h.Inv) : h.WF := by
  refine ⟨hi.1, fun c hc => ?_⟩
  obtain ⟨hcap, hlen, hcl⟩ := hi.2.2.1 c (hi.2.1 c hc)
  refine ⟨?_, hcap, hlen⟩
  cases hcc : (h.send c).closed
  · rfl
  · exact absurd hc (hcl.mp hcc)

theorem newHub_inv : newHub.Inv := by
  refine ⟨List.nodup_nil, ?_, ?_, ?_⟩ <;> simp [newHub]

theorem serveWs_inv (h : Hub) (hi : h.Inv) : ∃ h1, serveWs h = some h1 ∧ h1.Inv := by
  obtain ⟨hnd, hlt, hch, htr⟩ := hi
  have hfresh : h.next ∉ h.clients := fun hm => Nat.lt_irrefl _ (hlt _ hm)
  refine ⟨_, rfl, ?_, ?_, ?_, ?_⟩
  · simp only [Hub.insertClient, hfresh, if_false]
    exact List.Nodup.append hnd (List.nodup_singleton _) (by simpa using hfresh)
  · intro c hc
    simp only [Hub.insertClient, hfresh, if_false, List.mem_append, List.mem_singleton] at hc
    show c < h.next + 1
    rcases hc with hc | hc
    · exact Nat.lt_succ_of_lt (hlt c hc)
    · exact hc ▸ Nat.lt_succ_self _
  · intro c hc
    simp only [Hub.insertClient, hfresh, if_false, List.mem_append, List.mem_singleton]
    by_cases hcn : c = h.next
    · subst hcn
      simp [makeChan, sendCap]
    · have hc2 : c < h.next := Nat.lt_of_le_of_ne (Nat.lt_succ_iff.mp hc) hcn
      simp only [Function.update_noteq hcn, hcn, or_false]
      exact hch c hc2
  · intro c
    show List.count (Op.close c) h.trace = _
    rw [htr c]
    simp only [Hub.insertClient, hfresh, if_false, List.mem_append, List.mem_singleton]
    by_cases hcn : c = h.next
    · subst hcn
      simp
    · by_cases hc2 : c < h.next
      · have : c < h.next + 1 := Nat.lt_succ_of_lt hc2
        simp [hcn, hc2, this]
      · have : ¬ c < h.next + 1 :=
          fun hlt1 => hc2 (Nat.lt_of_le_of_ne (Nat.lt_succ_iff.mp hlt1) hcn)
        simp [hc2, this]

theorem count_close_snoc (tr : List Op) (c d : ClientId) :
    (tr ++ [Op.close c]).count (Op.close d) = tr.count (Op.close d) + if d = c then 1 else 0 := by
  rw [List.count_append]
  by_cases hd : d = c
  · subst hd; simp
  · have : Op.close c ≠ Op.close d := by
      intro e; injection e with e; exact hd e.symm
    simp [hd, List.count_cons_of_ne this]

theorem unregister_inv (h : Hub) (c : ClientId) (hi : h.Inv) :
    ∃ h1, h.runStep (Event.unregister c) = some h1 ∧ h1.Inv := by
  by_cases hc : c ∈ h.clients
  · refine ⟨h.unregistered c, unregister_member h c hc ((Inv.wf hi).2 c hc).1, ?_⟩
    obtain ⟨hnd, hlt, hch, htr⟩ := hi
    refine ⟨hnd.filter _, ?_, ?_, ?_⟩
    · intro d hd
      exact hlt d (List.mem_filter.mp hd).1
    · intro d hd
      obtain ⟨h1, h2, h3⟩ := hch d hd
      by_cases hdc : d = c
      · subst hdc
        simp [Hub.unregistered, h1, h2]
      · simp only [Hub.unregistered, Function.update_noteq hdc, List.mem_filter, hdc,
          ne_eq, not_false_eq_true, decide_True, and_true]
        exact ⟨h1, h2, h3⟩
    · intro d
      show List.count (Op.close d) (h.trace ++ [Op.close c]) = _
      rw [count_close_snoc, htr d]
      have hcn : c < h.next := hlt c hc
      by_cases hdc : d = c
      · subst hdc
        simp [Hub.unregistered, hc, hcn]
      · simp [Hub.unregistered, hdc]
  · exact ⟨h, unregister_absent h c hc, hi⟩

theorem count_close_deliverOps (h : Hub) (m : Msg) (l : List ClientId) (hnd : l.Nodup)
    (d : ClientId) :
    (l.map (h.deliverOp m)).count (Op.close d) =
      if d ∈ l ∧ ¬ (h.send d).buf.length < (h.send d).cap then 1 else 0 := by
  by_cases hd : d ∈ l ∧ ¬ (h.send d).buf.length < (h.send d).cap
  · have hop : h.deliverOp m d = Op.close d := by simp [Hub.deliverOp, hd.2]
    rw [if_pos hd, ← hop, List.count_map_of_injective _ _ (deliverOp_injective h m)]
    exact List.count_eq_one_of_mem hnd hd.1
  · rw [if_neg hd, List.count_eq_zero]
    intro hmem
    obtain ⟨x, hx, hxd⟩ := List.mem_map.mp hmem
    unfold Hub.deliverOp at hxd
    split at hxd
    · simp at hxd
    · rename_i hroom
      simp only [Op.close.injEq] at hxd
      subst hxd
      exact hd ⟨hx, hroom⟩

theorem broadcast_inv (h : Hub) (m : Msg) (hi : h.Inv) :
    ∃ h1, h.runStep (Event.broadcast m) = some h1 ∧ h1.Inv := by
  have hwf := Inv.wf hi
  refine ⟨h.fanOutResult m h.clients, broadcast_eq h m hwf, ?_⟩
  obtain ⟨hnd, hlt, hch, htr⟩ := hi
  refine ⟨hnd.filter _, ?_, ?_, ?_⟩
  · intro d hd
    exact hlt d ((fanOutResult_mem h m hwf d).mp hd).1
  · intro d hd
    obtain ⟨h1, h2, h3⟩ := hch d hd
    rw [fanOutResult_mem h m hwf d]
    by_cases hdm : d ∈ h.clients
    · have hopen := (hwf.2 d hdm).1
      by_cases hr : (h.send d).buf.length < sendCap
      · rw [fanOutResult_send_room h m hwf d hdm hr]
        refine ⟨h1, ?_, ?_⟩
        · simp only [List.length_append, List.length_singleton]; omega
        · simp [hopen, hdm, hr]
      · have hfull : (h.send d).buf.length = sendCap := by omega
        rw [fanOutResult_send_full h m hwf d hdm hfull]
        refine ⟨h1, h2, ?_⟩
        simp [hr]
    · have hs : (h.fanOutResult m h.clients).send d = h.send d := by
        simp [Hub.fanOutResult, hdm]
      rw [hs]
      refine ⟨h1, h2, ?_⟩
      simp [hdm, h3.mpr hdm]
  · intro d
    show List.count (Op.close d) (h.trace ++ List.map (h.deliverOp m) h.clients) = _
    rw [List.count_append, htr d, count_close_deliverOps h m h.clients hnd d]
    have hmem := fanOutResult_mem h m hwf d
    simp only [hmem]
    show _ = if d < h.next ∧ _ then 1 else 0
    by_cases hdm : d ∈ h.clients
    · have hcap := (hwf.2 d hdm).2.1
      have hdn := hlt d hdm
      by_cases hr : (h.send d).buf.length < sendCap
      · simp [hdm, hcap, hr]
      · simp [hdm, hcap, hr, hdn]
    · simp [hdm]

theorem recv_spec (ch : Chan) :
    ch.recv.cap = ch.cap ∧ ch.recv.closed = ch.closed ∧ ch.recv.buf.length ≤ ch.buf.length := by
  cases ch with
  | mk buf cap closed =>
    cases buf with
    | nil => simp [Chan.recv]
    | cons x rest => simp [Chan.recv]

theorem dequeue_inv (h : Hub) (c : ClientId) (hi : h.Inv) : (h.dequeue c).Inv := by
  obtain ⟨hnd, hlt, hch, htr⟩ := hi
  refine ⟨hnd, hlt, ?_, htr⟩
  intro d hd
  obtain ⟨h1, h2, h3⟩ := hch d hd
  by_cases hdc : d = c
  · subst hdc
    obtain ⟨r1, r2, r3⟩ := recv_spec (h.send d)
    simp only [Hub.dequeue, Function.update_same, r1, r2]
    exact ⟨h1, Nat.le_trans r3 h2, h3⟩
  · simp only [Hub.dequeue, Function.update_noteq hdc]
    exact ⟨h1, h2, h3⟩

theorem act_inv (h : Hub) (a : Action) (hi : h.Inv) : ∃ h1, h.act a = some h1 ∧ h1.Inv := by
  cases a with
  | connect => exact serveWs_inv h hi
  | unregister c => exact unregister_inv h c hi
  | broadcast m => exact broadcast_inv h m hi
  | dequeue c => exact ⟨h.dequeue c, rfl, dequeue_inv h c hi⟩

theorem acts_inv (l : List Action) (h : Hub) (hi : h.Inv) :
    ∃ h1, h.acts l = some h1 ∧ h1.Inv := by
  induction l generalizing h with
  | nil => exact ⟨h, rfl, hi⟩
  | cons a rest ih =>
    obtain ⟨h1, e1, hi1⟩ := act_inv h a hi
    obtain ⟨h2, e2, hi2⟩ := ih h1 hi1
    exact ⟨h2, by simp only [Hub.acts, e1, e2], hi2⟩

/-- Every state reached from `newHub()` is well-formed, so the one-step
theorems about well-formed states apply to every state the Hub can be in. -/
theorem reachable_wf (l : List Action) (h : Hub) (hr : newHub.acts l = some h) : h.WF := by
  obtain ⟨h1, e, hi⟩ := acts_inv l newHub newHub_inv
  rw [hr] at e
  cases e
  exact Inv.wf hi

/-- Claim C5 (Hub invariant). Every finite run from `newHub()` made of
connections served by `serveWs`, unregister requests, broadcasts and write-pump
receives completes without a panic, and in the state it reaches every client
in the map has an open queue of capacity 256 holding at most 256 messages,
every created client that is no longer in the map has a closed queue, the
trace holds at most one close per queue, and any further step again completes
without a panic (no send on a closed queue, no second close). -/
theorem hub_invariant (l : List Action) :
    ∃ h, newHub.acts l = some h ∧
      h.clients.Nodup ∧
      (∀ c ∈ h.clients, (h.send c).closed = false ∧ (h.send c).cap = 256 ∧
        (h.send c).buf.length ≤ 256) ∧
      (∀ c, c < h.next → c ∉ h.clients → (h.send c).closed = true) ∧
      (∀ c, h.trace.count (Op.close c) ≤ 1) ∧
      ∀ a : Action, (h.act a).isSome = true := by
  obtain ⟨h, e, hi⟩ := acts_inv l newHub newHub_inv
  have hwf := Inv.wf hi
  refine ⟨h, e, hwf.1, hwf.2, ?_, ?_, ?_⟩
  · intro c hc hm
    exact (hi.2.2.1 c hc).2.2.mpr hm
  · intro c
    rw [hi.2.2.2 c]
    split <;> simp
  · intro a
    obtain ⟨h1, e1, _⟩ := act_inv h a hi
    simp [e1]

/-- Claim C6 (end-to-end scenario). From `newHub()`, after A, B, C are
registered, `"hello"` is broadcast, C is unregistered and `"world"` is
broadcast, with no queue drained: the run does not panic, the queue of B holds
exactly `"hello"`, `"world"`, the queue of C holds exactly one `"hello"` and is
closed, and the map holds exactly A and B (2 entries). -/
theorem end_to_end_scenario :
    ∃ h, newHub.acts scenario = some h ∧
      (h.send 1).buf = [hello, world] ∧ (h.send 1).closed = false ∧
      (h.send 2).buf = [hello] ∧ (h.send 2).closed = true ∧
      (h.send 0).buf = [hello, world] ∧
      h.clients.length = 2 ∧ h.clients = [0, 1] := by
  refine ⟨_, rfl, ?_, ?_, ?_, ?_, ?_, ?_, ?_⟩ <;> decide

theorem readLoop_before_error (pre rest : List Inbound) (e : ReadErr)
    (hpre : ∀ x ∈ pre, x.isError = false) :
    (readLoop (pre ++ Inbound.error e :: rest)).2 = true ∧
      hubRequests (readLoop (pre ++ Inbound.error e :: rest)).1 =
        (pre.filterMap Inbound.payload).map Effect.hubBroadcast ∧
      Effect.connClose ∉ (readLoop (pre ++ Inbound.error e :: rest)).1 ∧
      ∀ c, Effect.hubUnregister c ∉ (readLoop (pre ++ Inbound.error e :: rest)).1 := by
  induction pre with
  | nil =>
    simp only [List.nil_append, readLoop, List.filterMap_nil, List.map_nil]
    split <;> simp [hubRequests]
  | cons x pre ih =>
    obtain ⟨i1, i2, i3, i4⟩ := ih (fun y hy => hpre y (List.mem_cons_of_mem _ hy))
    cases x with
    | pong =>
      simp only [List.cons_append, readLoop]
      refine ⟨i1, ?_, ?_, ?_⟩
      · simpa [hubRequests, Inbound.payload] using i2
      · simpa using i3
      · simpa using i4
    | message m =>
      simp only [List.cons_append, readLoop]
      refine ⟨i1, ?_, ?_, ?_⟩
      · simpa [hubRequests, Inbound.payload] using i2
      · simpa using i3
      · simpa using i4
    | error e1 =>
      have := hpre (Inbound.error e1) (List.mem_cons_self _ _)
      simp [Inbound.isError] at this

theorem readLoop_stops (pre rest : List Inbound) (e : ReadErr) :
    readLoop (pre ++ Inbound.error e :: rest) = readLoop (pre ++ [Inbound.error e]) := by
  induction pre with
  | nil => simp [readLoop]
  | cons x pre ih =>
    cases x with
    | pong =>
      show readLoop (Inbound.pong :: (pre ++ Inbound.error e :: rest)) =
        readLoop (Inbound.pong :: (pre ++ [Inbound.error e]))
      simp only [readLoop, ih]
    | message m =>
      show readLoop (Inbound.message m :: (pre ++ Inbound.error e :: rest)) =
        readLoop (Inbound.message m :: (pre ++ [Inbound.error e]))
      simp only [readLoop, ih]
    | error e1 => simp only [List.cons_append, readLoop]

theorem messages_not_error (ms : List Msg) :
    ∀ x ∈ ms.map Inbound.message, x.isError = false := by
  intro x hx
  obtain ⟨m, _, hm⟩ := List.mem_map.mp hx
  subst hm
  rfl

theorem payload_messages (ms : List Msg) :
    (ms.map Inbound.message).filterMap Inbound.payload = ms := by
  induction ms with
  | nil => rfl
  | cons m ms ih => simp [Inbound.payload, ih]

theorem hubRequests_readPump (self : ClientId) (pre rest : List Inbound) (e : ReadErr)
    (hpre : ∀ x ∈ pre, x.isError = false) :
    hubRequests (readPump self (pre ++ Inbound.error e :: rest)) =
      (pre.filterMap Inbound.payload).map Effect.hubBroadcast ++ [Effect.hubUnregister self] := by
  obtain ⟨i1, i2, _, _⟩ := readLoop_before_error pre rest e hpre
  simp only [readPump, i1, if_true]
  simp only [hubRequests, List.filter_append] at i2 ⊢
  rw [i2]
  simp

/-- Claim C8 (read pump contract). When the connection delivers the inbound
events `pre` (data messages, possibly with pong frames in between), none of
them an error, and then a read error `e` of any kind, `readPump` submits to
the Hub exactly one broadcast per data message, with the payload unchanged and
in read order, followed by exactly one unregister of itself (for reads
`m1..mk` these are `Broadcast(m1)`, ..., `Broadcast(mk)`, `Unregister(self)`);
its last two calls are that unregister and then the close of the connection,
neither call occurs earlier, and nothing delivered after the error changes
what the pump does. -/
theorem read_pump_contract (self : ClientId) (pre rest : List Inbound) (e : ReadErr)
    (hpre : ∀ x ∈ pre, x.isError = false) :
    hubRequests (readPump self (pre ++ Inbound.error e :: rest)) =
        (pre.filterMap Inbound.payload).map Effect.hubBroadcast ++ [Effect.hubUnregister self] ∧
      (∀ ms : List Msg,
        hubRequests (readPump self (ms.map Inbound.message ++ Inbound.error e :: rest)) =
          ms.map Effect.hubBroadcast ++ [Effect.hubUnregister self]) ∧
      (∃ body, readPump self (pre ++ Inbound.error e :: rest) =
          body ++ [Effect.hubUnregister self, Effect.connClose] ∧
        Effect.connClose ∉ body ∧ ∀ c, Effect.hubUnregister c ∉ body) ∧
      readPump self (pre ++ Inbound.error e :: rest) =
        readPump self (pre ++ [Inbound.error e]) := by
  obtain ⟨i1, _, i3, i4⟩ := readLoop_before_error pre rest e hpre
  refine ⟨hubRequests_readPump self pre rest e hpre, ?_, ?_, ?_⟩
  · intro ms
    rw [hubRequests_readPump self _ rest e (messages_not_error ms), payload_messages]
  · refine ⟨[Effect.setReadLimit 512, Effect.setReadDeadline readWait, Effect.setPongHandler] ++
      (readLoop (pre ++ Inbound.error e :: rest)).1, ?_, ?_, ?_⟩
    · simp only [readPump, i1, if_true]
    · simpa using i3
    · intro c; simpa using i4 c
  · simp only [readPump, readLoop_stops pre rest e]

theorem writeLoop_go (pre : List (Wake × Bool)) (hpre : ∀ x ∈ pre, goesOn x = true)
    (tail : List (Wake × Bool)) :
    (writeLoop (pre ++ tail)).2 = (writeLoop tail).2 ∧
      framesWritten (writeLoop (pre ++ tail)).1 =
        pre.map (fun x => x.1.frame) ++ framesWritten (writeLoop tail).1 ∧
      (Effect.connClose ∈ (writeLoop (pre ++ tail)).1 → Effect.connClose ∈ (writeLoop tail).1) := by
  induction pre with
  | nil => simp
  | cons x pre ih =>
    obtain ⟨i1, i2, i3⟩ := ih (fun y hy => hpre y (List.mem_cons_of_mem _ hy))
    have hx := hpre x (List.mem_cons_self _ _)
    obtain ⟨w, ok⟩ := x
    cases w with
    | closed => simp [goesOn] at hx
    | message m =>
      simp only [goesOn] at hx
      subst hx
      simp only [List.cons_append, writeLoop, if_true]
      refine ⟨i1, ?_, ?_⟩
      · simpa [framesWritten, Wake.frame] using i2
      · simpa using i3
    | tick =>
      simp only [goesOn] at hx
      subst hx
      simp only [List.cons_append, writeLoop, if_true]
      refine ⟨i1, ?_, ?_⟩
      · simpa [framesWritten, Wake.frame] using i2
      · simpa using i3

theorem writeLoop_congr (pre : List (Wake × Bool)) (hpre : ∀ x ∈ pre, goesOn x = true)
    (t1 t2 : List (Wake × Bool)) (ht : writeLoop t1 = writeLoop t2) :
    writeLoop (pre ++ t1) = writeLoop (pre ++ t2) := by
  induction pre with
  | nil => simpa using ht
  | cons x pre ih =>
    have ih1 := ih (fun y hy => hpre y (List.mem_cons_of_mem _ hy))
    have hx := hpre x (List.mem_cons_self _ _)
    obtain ⟨k, ok⟩ := x
    cases k with
    | closed => simp [goesOn] at hx
    | message m =>
      simp only [goesOn] at hx
      subst hx
      show writeLoop ((Wake.message m, true) :: (pre ++ t1)) =
        writeLoop ((Wake.message m, true) :: (pre ++ t2))
      simp only [writeLoop, if_true, ih1]
    | tick =>
      simp only [goesOn] at hx
      subst hx
      show writeLoop ((Wake.tick, true) :: (pre ++ t1)) =
        writeLoop ((Wake.tick, true) :: (pre ++ t2))
      simp only [writeLoop, if_true, ih1]

theorem writeLoop_stop (w : Wake × Bool) (hw : goesOn w = false) (rest : List (Wake × Bool)) :
    (writeLoop (w :: rest)).2 = true ∧
      framesWritten (writeLoop (w :: rest)).1 = [w.1.frame] ∧
      Effect.connClose ∉ (writeLoop (w :: rest)).1 ∧
      writeLoop (w :: rest) = writeLoop [w] := by
  obtain ⟨k, ok⟩ := w
  cases k with
  | closed => simp [writeLoop, framesWritten, Wake.frame]
  | message m =>
    simp only [goesOn] at hw
    subst hw
    simp [writeLoop, framesWritten, Wake.frame]
  | tick =>
    simp only [goesOn] at hw
    subst hw
    simp [writeLoop, framesWritten, Wake.frame]

theorem frame_ne_close (x : Wake × Bool) (hx : goesOn x = true) :
    x.1.frame ≠ Effect.writeMessage FrameKind.close [] := by
  obtain ⟨k, ok⟩ := x
  cases k with
  | closed => simp [goesOn] at hx
  | message m => simp [Wake.frame]
  | tick => simp [Wake.frame]

/-- Claim C9 (write pump contract). Let the wake-ups `pre` be dequeued
messages and ticks whose writes all succeed, followed by a wake-up `w` that is
the closed queue or whose write fails. Then `writePump` writes exactly one
frame per wake-up of `pre` and for `w`, in order (a text frame with the
dequeued payload for a message, a ping frame for a tick, a close frame for the
closed queue), writes nothing for what follows `w`, and ends with stopping the
ticker and closing the connection, which it does not close earlier; when `w`
is the closed queue exactly one close frame is written, as the last frame; and
while no such `w` has occurred the frames written are exactly those of
`pre`. -/
theorem write_pump_contract (pre rest : List (Wake × Bool)) (w : Wake × Bool)
    (hpre : ∀ x ∈ pre, goesOn x = true) (hw : goesOn w = false) :
    framesWritten (writePump (pre ++ w :: rest)) = (pre ++ [w]).map (fun x => x.1.frame) ∧
      writePump (pre ++ w :: rest) = writePump (pre ++ [w]) ∧
      (∃ body, writePump (pre ++ w :: rest) = body ++ [Effect.tickerStop, Effect.connClose] ∧
        Effect.connClose ∉ body) ∧
      (w.1 = Wake.closed →
        (framesWritten (writePump (pre ++ w :: rest))).count
          (Effect.writeMessage FrameKind.close []) = 1) ∧
      framesWritten (writePump pre) = pre.map (fun x => x.1.frame) := by
  obtain ⟨g1, g2, g3⟩ := writeLoop_go pre hpre (w :: rest)
  obtain ⟨s1, s2, s3, s4⟩ := writeLoop_stop w hw rest
  have hframes : framesWritten (writePump (pre ++ w :: rest)) =
      (pre ++ [w]).map (fun x => x.1.frame) := by
    simp only [writePump, g1, s1, if_true]
    simp only [framesWritten, List.filter_append, List.filter_cons] at g2 s2 ⊢
    rw [g2, s2]
    simp
  refine ⟨hframes, ?_, ?_, ?_, ?_⟩
  · simp only [writePump, writeLoop_congr pre hpre (w :: rest) [w] s4]
  · refine ⟨Effect.newTicker pingPeriod :: (writeLoop (pre ++ w :: rest)).1, ?_, ?_⟩
    · simp only [writePump, g1, s1, if_true, List.cons_append]
    · intro hmem
      simp only [List.mem_cons] at hmem
      rcases hmem with hmem | hmem
      · cases hmem
      · exact s3 (g3 hmem)
  · intro hwc
    rw [hframes, List.map_append, List.count_append]
    have h0 : (pre.map (fun x => x.1.frame)).count (Effect.writeMessage FrameKind.close []) = 0 := by
      rw [List.count_eq_zero]
      intro hmem
      obtain ⟨x, hx, hxe⟩ := List.mem_map.mp hmem
      exact frame_ne_close x (hpre x hx) hxe
    rw [h0]
    simp [hwc, Wake.frame]
  · have := writeLoop_go pre hpre []
    simp only [List.append_nil, writeLoop] at this
    simp only [writePump, this.1]
    simp only [framesWritten, List.filter_append, List.filter_cons] at this ⊢
    rw [this.2.1]
    simp

theorem readLoop_count_deadline (inb : List Inbound) (d : Nat) :
    (readLoop inb).1.count (Effect.setReadDeadline d) =
      if d = readWait then (handled inb).count Inbound.pong else 0 := by
  induction inb with
  | nil => simp [readLoop, handled]
  | cons x inb ih =>
    unfold handled at ih ⊢
    cases x with
    | pong =>
      simp only [readLoop, List.count_cons, ih, List.takeWhile_cons, Inbound.isError,
        Bool.not_false, if_true, beq_iff_eq, Effect.setReadDeadline.injEq]
      by_cases hd : d = readWait
      · simp [hd]
      · have : ¬ readWait = d := fun e => hd e.symm
        simp [hd, this]
    | message m =>
      simp only [readLoop, List.count_cons, ih, List.takeWhile_cons, Inbound.isError,
        Bool.not_false, if_true, beq_iff_eq, reduceCtorEq, if_false, Nat.add_zero]
    | error e =>
      simp only [readLoop, List.takeWhile_cons, Inbound.isError, Bool.not_true,
        Bool.false_eq_true, if_false, List.count_nil]
      split <;> simp

theorem readPump_count_deadline (self : ClientId) (inb : List Inbound) (d : Nat) :
    (readPump self inb).count (Effect.setReadDeadline d) =
      if d = readWait then 1 + (handled inb).count Inbound.pong else 0 := by
  have hdef : ((if (readLoop inb).2 = true then [Effect.hubUnregister self, Effect.connClose]
      else []) : List Effect).count (Effect.setReadDeadline d) = 0 := by
    split <;> simp
  simp only [readPump, List.count_append, readLoop_count_deadline, hdef, Nat.add_zero]
  by_cases hd : d = readWait
  · simp [hd]
  · have : ¬ readWait = d := fun e => hd e.symm
    simp [hd, this]

theorem writeLoop_no_ticker (wakes : List (Wake × Bool)) (d : Nat) :
    Effect.newTicker d ∉ (writeLoop wakes).1 := by
  induction wakes with
  | nil => simp [writeLoop]
  | cons x wakes ih =>
    obtain ⟨k, ok⟩ := x
    cases k <;> cases ok <;> simp [writeLoop, ih]

theorem writePump_count_ticker (wakes : List (Wake × Bool)) (d : Nat) :
    (writePump wakes).count (Effect.newTicker d) = if d = pingPeriod then 1 else 0 := by
  have h0 : (writeLoop wakes).1.count (Effect.newTicker d) = 0 :=
    List.count_eq_zero.mpr (writeLoop_no_ticker wakes d)
  have hdef : ((if (writeLoop wakes).2 = true then [Effect.tickerStop, Effect.connClose]
      else []) : List Effect).count (Effect.newTicker d) = 0 := by
    split <;> simp
  simp only [writePump, List.count_cons, List.count_append, h0, hdef, Nat.add_zero, Nat.zero_add,
    beq_iff_eq, Effect.newTicker.injEq]
  by_cases hd : d = pingPeriod
  · simp [hd]
  · have : ¬ pingPeriod = d := fun e => hd e.symm
    simp [hd, this]

theorem writeLoop_write_deadlines (wakes : List (Wake × Bool)) (d : Nat)
    (hd : Effect.setWriteDeadline d ∈ (writeLoop wakes).1) : d = pongWait := by
  induction wakes with
  | nil => simp [writeLoop] at hd
  | cons x wakes ih =>
    obtain ⟨k, ok⟩ := x
    cases k <;> cases ok <;>
      simp only [writeLoop, if_true, if_false, Bool.false_eq_true, List.mem_cons,
        Effect.setWriteDeadline.injEq, reduceCtorEq, false_or, List.mem_nil_iff, or_false] at hd
    all_goals first
      | exact hd
      | (rcases hd with hd | hd
         · exact hd
         · exact ih hd)

theorem window_of_mem (ts : List Nat) (tr : List Effect) (w : Nat × Nat)
    (hw : w ∈ windowsOf ts tr) :
    ∃ d, Effect.setReadDeadline d ∈ tr ∧ w.2 = w.1 + d := by
  simp only [windowsOf, List.mem_filterMap] at hw
  obtain ⟨⟨t, e⟩, hz, he⟩ := hw
  have hmem : e ∈ tr := (List.of_mem_zip hz).2
  cases e <;> simp at he
  rename_i d
  exact ⟨d, hmem, by rw [← he]⟩

theorem ticker_of_mem (ts : List Nat) (tr : List Effect) (tk : Nat × Nat)
    (hk : tk ∈ tickersOf ts tr) : Effect.newTicker tk.2 ∈ tr := by
  simp only [tickersOf, List.mem_filterMap] at hk
  obtain ⟨⟨t, e⟩, hz, he⟩ := hk
  have hmem : e ∈ tr := (List.of_mem_zip hz).2
  cases e <;> simp at he
  rename_i d
  rw [← he]
  exact hmem

theorem readPump_deadline_eq (self : ClientId) (inb : List Inbound) (d : Nat)
    (hd : Effect.setReadDeadline d ∈ readPump self inb) : d = readWait := by
  by_contra hne
  have h0 := readPump_count_deadline self inb d
  rw [if_neg hne] at h0
  exact (List.count_eq_zero.mp h0) hd

theorem writePump_ticker_eq (wakes : List (Wake × Bool)) (d : Nat)
    (hd : Effect.newTicker d ∈ writePump wakes) : d = pingPeriod := by
  by_contra hne
  have h0 := writePump_count_ticker wakes d
  rw [if_neg hne] at h0
  exact (List.count_eq_zero.mp h0) hd

/-- Which windows hold a tick: a window opened at `t` with deadline
`t + readWait` holds a tick of a ticker of period `pingPeriod` created at `t0`
strictly inside exactly when the first tick precedes the deadline. -/
theorem tick_in_window_iff (t t0 : Nat) :
    (∃ k, 1 ≤ k ∧ t < tickTime (t0, pingPeriod) k ∧
        tickTime (t0, pingPeriod) k < t + readWait) ↔
      t0 + pingPeriod < t + readWait := by
  simp only [tickTime, pingPeriod, readWait, second]
  constructor
  · rintro ⟨k, hk, _, h2⟩
    have : 1 * (5 * 1000000000) ≤ k * (5 * 1000000000) := Nat.mul_le_mul_right _ hk
    omega
  · intro h
    refine ⟨(t - t0) / 5000000000 + 1, by omega, ?_, ?_⟩ <;> omega

/-- Claim C10 (keepalive timing), as amended. The write pump creates exactly
one ticker, as its first call, with period `pingPeriod` (5 s); the read pump
sets a read deadline once at start and once more for every pong it handles,
always `readWait` (60 s) after the current time, and sets no other read
deadline; every write deadline of the write pump is `pongWait` (5 s) after the
current time; and `pingPeriod` is strictly shorter than `readWait`. Hence,
whatever the times of the calls of the two pumps, a read-deadline window holds
a tick strictly inside exactly when the ticker was created less than
`readWait - pingPeriod` (55 s) after the window opened; in particular every
window opened at or after the creation of the ticker holds one. -/
theorem keepalive_timing :
    pingPeriod < readWait ∧
      (∀ wakes, (writePump wakes).head? = some (Effect.newTicker pingPeriod)) ∧
      (∀ wakes d, (writePump wakes).count (Effect.newTicker d) =
        if d = pingPeriod then 1 else 0) ∧
      (∀ self inb, (readPump self inb).take 3 =
        [Effect.setReadLimit 512, Effect.setReadDeadline readWait, Effect.setPongHandler]) ∧
      (∀ self inb d, (readPump self inb).count (Effect.setReadDeadline d) =
        if d = readWait then 1 + (handled inb).count Inbound.pong else 0) ∧
      (∀ wakes d, Effect.setWriteDeadline d ∈ writePump wakes → d = pongWait) ∧
      ∀ (self : ClientId) (inb : List Inbound) (ts : List Nat) (wakes : List (Wake × Bool))
        (ts2 : List Nat) (w tk : Nat × Nat),
        w ∈ windowsOf ts (readPump self inb) → tk ∈ tickersOf ts2 (writePump wakes) →
          w.2 = w.1 + readWait ∧ tk.2 = pingPeriod ∧
          ((∃ k, 1 ≤ k ∧ w.1 < tickTime tk k ∧ tickTime tk k < w.2) ↔
            tk.1 + pingPeriod < w.1 + readWait) ∧
          (tk.1 ≤ w.1 → ∃ k, 1 ≤ k ∧ w.1 < tickTime tk k ∧ tickTime tk k < w.2) := by
  refine ⟨by decide, ?_, writePump_count_ticker, ?_, readPump_count_deadline, ?_, ?_⟩
  · intro wakes
    simp [writePump]
  · intro self inb
    simp [readPump]
  · intro wakes d hd
    simp only [writePump, List.mem_cons, reduceCtorEq, false_or, List.mem_append] at hd
    rcases hd with hd | hd
    · exact writeLoop_write_deadlines wakes d hd
    · split at hd <;> simp at hd
  · intro self inb ts wakes ts2 w tk hw hk
    obtain ⟨d, hd, hwd⟩ := window_of_mem ts _ w hw
    have hdr := readPump_deadline_eq self inb d hd
    have hkp := writePump_ticker_eq wakes tk.2 (ticker_of_mem ts2 _ tk hk)
    subst hdr
    obtain ⟨t0, p⟩ := tk
    obtain ⟨t, dl⟩ := w
    simp only at hwd hkp
    subst hwd hkp
    have hiff := tick_in_window_iff t t0
    refine ⟨rfl, rfl, hiff, ?_⟩
    intro hle
    apply hiff.mpr
    simp only [pingPeriod, readWait, second] at hle ⊢
    omega

/-- The visiting order of the `range` loop does not matter: over any
enumeration of the map keys the broadcast loop does not panic and ends with
the same map and the same queues; only the order of the recorded channel
operations follows the visiting order. -/
theorem fanOut_order_irrelevant (h : Hub) (m : Msg) (order : List ClientId) (hwf : h.WF)
    (hp : order.Perm h.clients) :
    ∃ h1 h2, Hub.fanOut m order h = some h1 ∧ h.runStep (Event.broadcast m) = some h2 ∧
      h1.clients = h2.clients ∧ h1.send = h2.send ∧ h1.next = h2.next ∧
      h1.trace.Perm h2.trace := by
  have hnd : order.Nodup := hp.nodup_iff.mpr hwf.1
  have ho : ∀ c ∈ order, (h.send c).closed = false :=
    fun c hc => (hwf.2 c (hp.mem_iff.mp hc)).1
  refine ⟨h.fanOutResult m order, h.fanOutResult m h.clients, fanOut_eq m order h hnd ho,
    broadcast_eq h m hwf, ?_, ?_, rfl, ?_⟩
  · apply List.filter_congr
    intro d _
    simp only [hp.mem_iff]
  · funext d
    simp only [Hub.fanOutResult, hp.mem_iff]
  · exact List.Perm.append_left _ (hp.map _)

theorem fullBuf_length : fullBuf.length = 256 := List.length_replicate 256 []

theorem demoHub_wf : demoHub.WF := by
  refine ⟨by decide, ?_⟩
  intro c hc
  simp only [demoHub, List.mem_cons, List.mem_singleton, List.mem_nil_iff, or_false] at hc
  rcases hc with hc | hc <;> subst hc <;> simp [demoHub, makeChan, sendCap, fullBuf_length]

theorem demoHub_full : (demoHub.send 0).buf.length = 256 := by
  simp [demoHub, fullBuf_length]

/-- Instance of C1 at `demoHub`: client 0 is evicted, client 1 receives. -/
theorem backpressure_eviction_witness :
    demoHub.WF ∧ 0 ∈ demoHub.clients ∧ (demoHub.send 0).buf.length = 256 ∧
      ∃ h1, demoHub.runStep (Event.broadcast hello) = some h1 ∧ 0 ∉ h1.clients ∧
        (h1.send 0).closed = true ∧ (h1.send 1).buf = [hello] := by
  refine ⟨demoHub_wf, by decide, demoHub_full, ?_⟩
  obtain ⟨h1, ops, e, a, b, _, _, _, _, g⟩ :=
    backpressure_eviction demoHub hello 0 demoHub_wf (by decide) demoHub_full
  exact ⟨h1, e, a, b, (g 1 (by decide) (by simp [demoHub, makeChan])).2.2⟩

/-- Instance of C2 at `demoHub`: client 1 has `"hello"`, `"world"` appended. -/
theorem fanout_completeness_witness :
    demoHub.WF ∧
      ∃ h2, demoHub.run [Event.broadcast hello, Event.broadcast world] = some h2 ∧
        1 ∈ h2.clients ∧ (h2.send 1).buf = [hello, world] := by
  refine ⟨demoHub_wf, ?_⟩
  obtain ⟨_, _, _, hseq⟩ := fanout_completeness demoHub hello demoHub_wf
  obtain ⟨h2, e, a, _, b⟩ := hseq [hello, world] 1 (by decide) (by simp [demoHub, makeChan])
  exact ⟨h2, e, a, by simpa [demoHub, makeChan] using b⟩

/-- Instance of C3 at `demoHub`: unregistering client 1, and the removed
client 2. -/
theorem unregister_semantics_witness :
    demoHub.WF ∧
      (∃ h1, demoHub.runStep (Event.unregister 1) = some h1 ∧ 1 ∉ h1.clients ∧
        (h1.send 1).closed = true) ∧
      demoHub.runStep (Event.unregister 2) = some demoHub := by
  refine ⟨demoHub_wf, ?_, (unregister_semantics demoHub 2 demoHub_wf).2 (by decide)⟩
  obtain ⟨h1, e, a, _, b, _⟩ := (unregister_semantics demoHub 1 demoHub_wf).1 (by decide)
  exact ⟨h1, e, a, by rw [b]⟩

/-- Instance of C4 at `demoHub`: client 1 unregistered twice; client 0 evicted
and then unregistered. -/
theorem unregister_at_most_once_witness :
    demoHub.WF ∧ 1 ∈ demoHub.clients ∧ 0 ∈ demoHub.clients ∧
      (demoHub.send 0).buf.length = 256 ∧
      (∃ h1, demoHub.run [Event.unregister 1, Event.unregister 1] = some h1 ∧
        h1.trace = demoHub.trace ++ [Op.close 1]) ∧
      ∃ h1 ops, demoHub.run [Event.broadcast hello, Event.unregister 0] = some h1 ∧
        (h1.send 0).closed = true ∧ h1.trace = demoHub.trace ++ ops ∧
        ops.count (Op.close 0) = 1 := by
  refine ⟨demoHub_wf, by decide, by decide, demoHub_full, ?_, ?_⟩
  · obtain ⟨h1, _, e, _, _, t⟩ := (unregister_at_most_once demoHub 1 demoHub_wf (by decide)).1
    exact ⟨h1, e, t⟩
  · obtain ⟨h1, ops, _, e, _, c, t, n⟩ :=
      (unregister_at_most_once demoHub 0 demoHub_wf (by decide)).2 hello demoHub_full
    exact ⟨h1, ops, e, c, t, n⟩

/-- Instance of C7 at `demoHub`: registering client 5. -/
theorem register_adds_one_witness :
    5 ∉ demoHub.clients ∧
      ∃ h1, demoHub.runStep (Event.register 5) = some h1 ∧ h1.clients.length = 3 := by
  refine ⟨by decide, ?_⟩
  obtain ⟨h1, e, _, l, _⟩ := register_adds_one demoHub 5 (by decide)
  exact ⟨h1, e, l⟩

/-- Instance of C8: a pong, `"hello"`, `"world"`, then a going-away close. -/
theorem read_pump_contract_witness :
    (∀ x ∈ [Inbound.pong, Inbound.message hello, Inbound.message world], x.isError = false) ∧
      hubRequests (readPump 7
          ([Inbound.pong, Inbound.message hello, Inbound.message world] ++
            Inbound.error (ReadErr.closeError 1001) :: [Inbound.message hello])) =
        [Effect.hubBroadcast hello, Effect.hubBroadcast world, Effect.hubUnregister 7] := by
  refine ⟨by decide, ?_⟩
  exact (read_pump_contract 7 [Inbound.pong, Inbound.message hello, Inbound.message world]
    [Inbound.message hello] (ReadErr.closeError 1001) (by decide)).1

/-- Instance of C9: `"hello"` written, a ping written, then a failed write of
`"world"`; the later tick is not served. -/
theorem write_pump_contract_witness :
    (∀ x ∈ [(Wake.message hello, true), (Wake.tick, true)], goesOn x = true) ∧
      goesOn (Wake.message world, false) = false ∧
      framesWritten (writePump ([(Wake.message hello, true), (Wake.tick, true)] ++
          (Wake.message world, false) :: [(Wake.tick, true)])) =
        [Effect.writeMessage FrameKind.text hello, Effect.writeMessage FrameKind.ping [],
          Effect.writeMessage FrameKind.text world] := by
  refine ⟨by decide, by decide, ?_⟩
  exact (write_pump_contract [(Wake.message hello, true), (Wake.tick, true)] [(Wake.tick, true)]
    (Wake.message world, false) (by decide) (by decide)).1

/-- Instance of C10: the read pump starts at time 0 and handles a pong at
30 s, the write pump creates its ticker at 1 s; the window opened at 30 s
holds a tick. -/
theorem keepalive_timing_witness :
    (30 * second, 30 * second + readWait) ∈
        windowsOf [0, 0, 0, 30 * second] (readPump 7 [Inbound.pong]) ∧
      (second, pingPeriod) ∈ tickersOf [second] (writePump []) ∧
      ∃ k, 1 ≤ k ∧ 30 * second < tickTime (second, pingPeriod) k ∧
        tickTime (second, pingPeriod) k < 30 * second + readWait := by
  have hw : (30 * second, 30 * second + readWait) ∈
      windowsOf [0, 0, 0, 30 * second] (readPump 7 [Inbound.pong]) := by decide
  have hk : (second, pingPeriod) ∈ tickersOf [second] (writePump []) := by decide
  exact ⟨hw, hk, (keepalive_timing.2.2.2.2.2.2 7 [Inbound.pong] [0, 0, 0, 30 * second] []
    [second] _ _ hw hk).2.2.2 (by decide)⟩

/-- The claim C10 as stated fails for a window opened before the ticker
exists: the read pump makes its three setup calls at time 0, which opens the
window from 0 to 60 s, and the write pump creates its ticker at 56 s; the first
tick comes at 61 s, so no tick falls in the window, its deadline included. -/
theorem keepalive_window_counterexample :
    (0, readWait) ∈ windowsOf [0, 0, 0] (readPump 7 []) ∧
      (56 * second, pingPeriod) ∈ tickersOf [56 * second] (writePump []) ∧
      ¬ ∃ k, 1 ≤ k ∧ 0 < tickTime (56 * second, pingPeriod) k ∧
        tickTime (56 * second, pingPeriod) k ≤ readWait := by
  refine ⟨by decide, by decide, ?_⟩
  rintro ⟨k, hk, _, h2⟩
  simp only [tickTime, pingPeriod, readWait, second] at h2
  omega

end GoChat
